import Mathlib

/-!
# gettestdata: the hex dump and the document it prints

`src/archive/practice/babybson/gettestdata/gettestdata.c` builds one document,
prints its JSON form and dumps the bytes of its binary encoding.  This file
embeds `hexdump` and `main` from that source, models the document codec the
program delegates to, and proves the properties stated about them.
-/

namespace GetTestData

/-! ## Bytes and machine sizes -/

/-- One `uint8_t`. -/
abbrev Byte := Fin 256

/-- Largest value a `size_t` holds (64-bit target). -/
def SIZE_MAX : Nat := 18446744073709551615

/-! ## `hexdump` (gettestdata.c, lines 4-9) -/

/-- The `printf` conversion `%02x` applied to an unsigned value: lowercase
hexadecimal digits, padded on the left with `0` to a width of at least two. -/
def fmt02x (v : Nat) : List Char :=
  let ds := Nat.toDigits 16 v
  List.replicate (2 - ds.length) '0' ++ ds

/-- The characters written by `printf ("0x%02x, ", v)`. -/
def printfHexByte (v : Nat) : List Char :=
  ['0', 'x'] ++ fmt02x v ++ [',', ' ']

/-- Ways a run of the loop can go wrong in the model. -/
inductive Fault where
  | outOfBounds
  | outOfFuel
  deriving DecidableEq, Repr

/-- What a run of `hexdump` has done so far: the characters written to
standard output, the indices of `data` it has read (oldest first) and the
number of loop iterations completed. -/
structure Run where
  out : List Char
  reads : List Nat
  iters : Nat
  deriving DecidableEq, Repr

/-- The loop `for (size_t i = 0; i < len; i++) printf ("0x%02x, ", data[i]);`
started at index `i`.  A read past the end of `data` is a fault, and `i++`
wraps like a `size_t`. -/
def hexdumpLoop (data : List Byte) (len : Nat) : Nat → Nat → Run → Except Fault Run
  | 0, _, _ => .error .outOfFuel
  | fuel + 1, i, r =>
    if i < len then
      match data[i]? with
      | none => .error .outOfBounds
      | some b =>
        hexdumpLoop data len fuel ((i + 1) % (SIZE_MAX + 1))
          { out := r.out ++ printfHexByte b.val, reads := r.reads ++ [i], iters := r.iters + 1 }
    else .ok r

/-- The function `hexdump (data, len)` run with a given amount of fuel: the
loop from `i = 0`, then `printf ("\n")`. -/
def hexdumpFuel (fuel : Nat) (data : List Byte) (len : Nat) : Except Fault Run :=
  match hexdumpLoop data len fuel 0 { out := [], reads := [], iters := 0 } with
  | .error e => .error e
  | .ok r => .ok { r with out := r.out ++ ['\n'] }

/-- The function `hexdump (data, len)`; `len + 1` guard evaluations are all the
loop can need. -/
def hexdump (data : List Byte) (len : Nat) : Except Fault Run :=
  hexdumpFuel (len + 1) data len

/-- The lowercase hexadecimal digit of a value below sixteen. -/
def lowerHexDigit (d : Nat) : Char :=
  "0123456789abcdef".toList.getD d '?'

/-- The six characters expected for one byte: `0x`, two lowercase
zero-padded hexadecimal digits, a comma and a blank. -/
def hexGroup (b : Byte) : List Char :=
  ['0', 'x', lowerHexDigit (b.val / 16), lowerHexDigit (b.val % 16), ',', ' ']

/-- Value of a lowercase hexadecimal digit character. -/
def hexValue (c : Char) : Nat :=
  if c.toNat < 58 then c.toNat - 48 else c.toNat - 87

/-- Reads the dumped bytes back from the printed text: the two hexadecimal
digits of each six-character group, up to the final newline. -/
def undump : List Char → List Nat
  | _ :: _ :: h :: l :: _ :: _ :: rest => (hexValue h * 16 + hexValue l) :: undump rest
  | _ => []

/-! ## The document model (spec, section 3)

The program delegates encoding to a library that is not part of the sources.
The codec below is written from the specification; tag numbers and payload
layouts the specification leaves to the named format are those of BSON. -/

/-- Modelled from the spec: a 32-bit signed integer of the Value union. -/
structure I32 where
  val : Int
  lo : -2147483648 ≤ val
  hi : val < 2147483648
  deriving DecidableEq, Repr

/-- Modelled from the spec: a 64-bit signed integer of the Value union. -/
structure I64 where
  val : Int
  lo : -9223372036854775808 ≤ val
  hi : val < 9223372036854775808
  deriving DecidableEq, Repr

/-- Modelled from the spec: the 64 bits of an IEEE-754 double, kept as a bit
pattern (the codec preserves the bits exactly). -/
abbrev DoubleBits := Fin 18446744073709551616

/-- Modelled from the spec: the twelve uninterpreted bytes that follow the
namespace in a DBPointer. -/
structure Oid where
  bytes : List Byte
  size : bytes.length = 12
  deriving DecidableEq, Repr

mutual
/-- Modelled from the spec: the Value tagged union of section 3 (the codec's
data model is not in the sources).  Strings and names are byte sequences whose
UTF-8 validity the codec checks; legacy variants carry their payload
uninterpreted. -/
inductive Value where
  | double (bits : DoubleBits)
  | string (s : List Byte)
  | document (d : Elems)
  | array (d : Elems)
  | binary (subtype : Byte) (data : List Byte)
  | boolean (b : Bool)
  | datetime (ms : I64)
  | null
  | regex (pattern : List Byte) (options : List Byte)
  | dbPointer (ns : List Byte) (id : Oid)
  | jsCode (code : List Byte)
  | symbol (s : List Byte)
  | int32 (v : I32)
  | int64 (v : I64)
  | minKey
  | maxKey
/-- Modelled from the spec: a Document of section 3, the ordered sequence of
(field name, Value) pairs; an array is a Document whose names are indices. -/
inductive Elems where
  | nil
  | cons (name : List Byte) (v : Value) (rest : Elems)
end

/-- Modelled from the spec: the errors of the encoder (section 7). -/
inductive EncodingError where
  | InvalidUTF8
  deriving DecidableEq, Repr

/-- Modelled from the spec: the errors of the decoder (sections 4.2 and 7). -/
inductive DecodingError where
  | TruncatedInput
  | LengthMismatch
  | InvalidTypeTag
  | UnterminatedString
  | UnterminatedFieldName
  | InvalidUTF8
  | TrailingGarbage
  deriving DecidableEq, Repr

/-! ## Little-endian integers -/

/-- Modelled from the spec: the `k` low bytes of `n`, least significant first
(the little-endian integers of section 4.2). -/
def leBytes : Nat → Nat → List Byte
  | 0, _ => []
  | k + 1, n => ⟨n % 256, Nat.mod_lt _ (by decide)⟩ :: leBytes k (n / 256)

/-- Modelled from the spec: the number a little-endian byte sequence denotes. -/
def leValue : List Byte → Nat
  | [] => 0
  | b :: t => b.val + 256 * leValue t

/-- Modelled from the spec: the two's-complement bits of a 32-bit signed
integer. -/
def I32.toBits (v : I32) : Nat := (v.val % 4294967296).toNat

/-- Modelled from the spec: the 32-bit signed integer with the given bits. -/
def I32.ofBits (u : Nat) : I32 :=
  if h : u % 4294967296 < 2147483648 then
    ⟨(u % 4294967296 : Nat), by omega, by omega⟩
  else
    ⟨(u % 4294967296 : Nat) - 4294967296, by omega, by omega⟩

/-- Modelled from the spec: the two's-complement bits of a 64-bit signed
integer. -/
def I64.toBits (v : I64) : Nat := (v.val % 18446744073709551616).toNat

/-- Modelled from the spec: the 64-bit signed integer with the given bits. -/
def I64.ofBits (u : Nat) : I64 :=
  if h : u % 18446744073709551616 < 9223372036854775808 then
    ⟨(u % 18446744073709551616 : Nat), by omega, by omega⟩
  else
    ⟨(u % 18446744073709551616 : Nat) - 18446744073709551616, by omega, by omega⟩

/-- Modelled from the spec: the double with the given bits. -/
def DoubleBits.ofBits (u : Nat) : DoubleBits :=
  ⟨u % 18446744073709551616, Nat.mod_lt _ (by decide)⟩

/-! ## UTF-8 -/

/-- A continuation byte `10xxxxxx`. -/
def isCont (b : Byte) : Bool := 0x80 ≤ b.val && b.val ≤ 0xBF

/-- A well-formed two-byte sequence. -/
def utf8Two (b0 b1 : Byte) : Bool := 0xC2 ≤ b0.val && b0.val ≤ 0xDF && isCont b1

/-- A well-formed three-byte sequence: no overlong form, no surrogate. -/
def utf8Three (b0 b1 b2 : Byte) : Bool :=
  ((b0.val = 0xE0 && 0xA0 ≤ b1.val && b1.val ≤ 0xBF)
    || (0xE1 ≤ b0.val && b0.val ≤ 0xEC && isCont b1)
    || (b0.val = 0xED && 0x80 ≤ b1.val && b1.val ≤ 0x9F)
    || (0xEE ≤ b0.val && b0.val ≤ 0xEF && isCont b1))
  && isCont b2

/-- A well-formed four-byte sequence: no overlong form, at most U+10FFFF. -/
def utf8Four (b0 b1 b2 b3 : Byte) : Bool :=
  ((b0.val = 0xF0 && 0x90 ≤ b1.val && b1.val ≤ 0xBF)
    || (0xF1 ≤ b0.val && b0.val ≤ 0xF3 && isCont b1)
    || (b0.val = 0xF4 && 0x80 ≤ b1.val && b1.val ≤ 0x8F))
  && isCont b2 && isCont b3

/-- Modelled from the spec: whether a byte sequence is valid UTF-8, the
constraint on strings and field names (sections 4.1 and 4.2). -/
def validUTF8 : List Byte → Bool
  | [] => true
  | b0 :: t =>
    if b0.val < 0x80 then validUTF8 t
    else match t with
      | [] => false
      | b1 :: t1 =>
        if utf8Two b0 b1 then validUTF8 t1
        else match t1 with
          | [] => false
          | b2 :: t2 =>
            if utf8Three b0 b1 b2 then validUTF8 t2
            else match t2 with
              | [] => false
              | b3 :: t3 => utf8Four b0 b1 b2 b3 && validUTF8 t3

/-! ## Encoder (spec, section 4.1) -/

/-- Modelled from the spec: the tag byte of a value (0x03 for an embedded
document and 0x10 for a 32-bit integer as in section 8; the others as in the
named format). -/
def valueTag : Value → Byte
  | .double _ => 0x01
  | .string _ => 0x02
  | .document _ => 0x03
  | .array _ => 0x04
  | .binary _ _ => 0x05
  | .boolean _ => 0x08
  | .datetime _ => 0x09
  | .null => 0x0A
  | .regex _ _ => 0x0B
  | .dbPointer _ _ => 0x0C
  | .jsCode _ => 0x0D
  | .symbol _ => 0x0E
  | .int32 _ => 0x10
  | .int64 _ => 0x12
  | .minKey => 0xFF
  | .maxKey => 0x7F

/-- Modelled from the spec: a container on the wire (section 3), the 4-byte
little-endian total length (which counts the length field and the
terminator), the elements, a zero byte.  A length that does not fit the four
bytes is cut to its low 32 bits. -/
def frame (body : List Byte) : List Byte :=
  leBytes 4 (body.length + 5) ++ body ++ [0]

/-- Modelled from the spec: a length-counted, zero-terminated string on the
wire (section 3). -/
def encodeString (s : List Byte) : List Byte :=
  leBytes 4 (s.length + 1) ++ s ++ [0]

mutual
/-- Modelled from the spec: the payload the Encoder of section 4.1 emits for a
value (the encoder itself is library code outside the sources). -/
def encodeValue : Value → Except EncodingError (List Byte)
  | .double bits => .ok (leBytes 8 bits.val)
  | .string s => if validUTF8 s then .ok (encodeString s) else .error .InvalidUTF8
  | .document d =>
    match encodeElems d with
    | .error e => .error e
    | .ok body => .ok (frame body)
  | .array d =>
    match encodeElems d with
    | .error e => .error e
    | .ok body => .ok (frame body)
  | .binary subtype data => .ok (leBytes 4 data.length ++ subtype :: data)
  | .boolean b => .ok [if b then 1 else 0]
  | .datetime ms => .ok (leBytes 8 ms.toBits)
  | .null => .ok []
  | .regex pattern options => .ok (pattern ++ [0] ++ options ++ [0])
  | .dbPointer ns id => .ok (encodeString ns ++ id.bytes)
  | .jsCode code => .ok (encodeString code)
  | .symbol s => .ok (encodeString s)
  | .int32 v => .ok (leBytes 4 v.toBits)
  | .int64 v => .ok (leBytes 8 v.toBits)
  | .minKey => .ok []
  | .maxKey => .ok []
/-- Modelled from the spec: the elements of a container in insertion order,
each as tag byte, zero-terminated field name, payload. -/
def encodeElems : Elems → Except EncodingError (List Byte)
  | .nil => .ok []
  | .cons name v rest =>
    if validUTF8 name then
      match encodeValue v with
      | .error e => .error e
      | .ok payload =>
        match encodeElems rest with
        | .error e => .error e
        | .ok tail => .ok (valueTag v :: (name ++ [0] ++ payload ++ tail))
    else .error .InvalidUTF8
end

/-- Modelled from the spec: the Encoder of section 4.1 applied to a top-level
Document. -/
def encode (d : Elems) : Except EncodingError (List Byte) :=
  match encodeElems d with
  | .error e => .error e
  | .ok body => .ok (frame body)

/-! ## Decoder (spec, section 4.2) -/

/-- Modelled from the spec: the tag bytes the decoder recognises, one for each
variant of the Value union. -/
def recognizedTags : List Byte :=
  [0x01, 0x02, 0x03, 0x04, 0x05, 0x08, 0x09, 0x0A, 0x0B, 0x0C, 0x0D, 0x0E, 0x10, 0x12, 0xFF, 0x7F]

/-- Modelled from the spec: splits off the first `n` bytes, or fails with `e`
when fewer remain. -/
def takeBytes (n : Nat) (s : List Byte) (e : DecodingError) :
    Except DecodingError (List Byte × List Byte) :=
  if n ≤ s.length then .ok (s.take n, s.drop n) else .error e

/-- Modelled from the spec: reads a zero-terminated byte string, the bytes
before the first zero byte; the rest starts after it. -/
def readCString : List Byte → Option (List Byte × List Byte)
  | [] => none
  | b :: t =>
    if b = 0 then some ([], t)
    else match readCString t with
      | none => none
      | some (name, rest) => some (b :: name, rest)

/-- Modelled from the spec: reads a length-counted, zero-terminated string. -/
def readString (s : List Byte) : Except DecodingError (List Byte × List Byte) :=
  match takeBytes 4 s .LengthMismatch with
  | .error e => .error e
  | .ok (len, r) =>
    if leValue len = 0 then .error .UnterminatedString
    else match takeBytes (leValue len - 1) r .TruncatedInput with
      | .error e => .error e
      | .ok (str, r1) =>
        match r1 with
        | [] => .error .TruncatedInput
        | z :: rest => if z = 0 then .ok (str, rest) else .error .UnterminatedString

/-- Modelled from the spec: reads the length field of a container and cuts the
container out of the input (bounds-checked slicing, section 4.2): the bytes
after the length field up to and including the terminator position, and what
follows the container. -/
def docSlice (s : List Byte) : Except DecodingError (List Byte × List Byte) :=
  if s.length < 4 then .error .TruncatedInput
  else if s.length < leValue (s.take 4) then .error .TruncatedInput
  else if leValue (s.take 4) < 5 then .error .LengthMismatch
  else .ok ((s.take (leValue (s.take 4))).drop 4, s.drop (leValue (s.take 4)))

/-- Modelled from the spec: decoding of one payload (section 4.2), given the
tag, the input after the field name and the decoder `sub` for the elements of
an embedded container. -/
def decodeValue (sub : List Byte → Except DecodingError Elems) (tag : Byte) (s : List Byte) :
    Except DecodingError (Value × List Byte) :=
  if tag = 0x01 then
    match takeBytes 8 s .LengthMismatch with
    | .error e => .error e
    | .ok (p, r) => .ok (.double (DoubleBits.ofBits (leValue p)), r)
  else if tag = 0x02 then
    match readString s with
    | .error e => .error e
    | .ok (str, r) => if validUTF8 str then .ok (.string str, r) else .error .InvalidUTF8
  else if tag = 0x03 then
    match docSlice s with
    | .error e => .error e
    | .ok (body, r) =>
      match sub body with
      | .error e => .error e
      | .ok d => .ok (.document d, r)
  else if tag = 0x04 then
    match docSlice s with
    | .error e => .error e
    | .ok (body, r) =>
      match sub body with
      | .error e => .error e
      | .ok d => .ok (.array d, r)
  else if tag = 0x05 then
    match takeBytes 4 s .LengthMismatch with
    | .error e => .error e
    | .ok (len, r) =>
      match r with
      | [] => .error .LengthMismatch
      | subtype :: r1 =>
        match takeBytes (leValue len) r1 .TruncatedInput with
        | .error e => .error e
        | .ok (data, rest) => .ok (.binary subtype data, rest)
  else if tag = 0x08 then
    match s with
    | [] => .error .LengthMismatch
    | b :: rest =>
      if b = 0 then .ok (.boolean false, rest)
      else if b = 1 then .ok (.boolean true, rest)
      else .error .InvalidTypeTag
  else if tag = 0x09 then
    match takeBytes 8 s .LengthMismatch with
    | .error e => .error e
    | .ok (p, r) => .ok (.datetime (I64.ofBits (leValue p)), r)
  else if tag = 0x0A then .ok (.null, s)
  else if tag = 0x0B then
    match readCString s with
    | none => .error .UnterminatedString
    | some (pattern, r) =>
      match readCString r with
      | none => .error .UnterminatedString
      | some (options, rest) => .ok (.regex pattern options, rest)
  else if tag = 0x0C then
    match readString s with
    | .error e => .error e
    | .ok (ns, r) =>
      if h : (r.take 12).length = 12 then .ok (.dbPointer ns ⟨r.take 12, h⟩, r.drop 12)
      else .error .LengthMismatch
  else if tag = 0x0D then
    match readString s with
    | .error e => .error e
    | .ok (code, r) => .ok (.jsCode code, r)
  else if tag = 0x0E then
    match readString s with
    | .error e => .error e
    | .ok (sym, r) => .ok (.symbol sym, r)
  else if tag = 0x10 then
    match takeBytes 4 s .LengthMismatch with
    | .error e => .error e
    | .ok (p, r) => .ok (.int32 (I32.ofBits (leValue p)), r)
  else if tag = 0x12 then
    match takeBytes 8 s .LengthMismatch with
    | .error e => .error e
    | .ok (p, r) => .ok (.int64 (I64.ofBits (leValue p)), r)
  else if tag = 0xFF then .ok (.minKey, s)
  else if tag = 0x7F then .ok (.maxKey, s)
  else .error .InvalidTypeTag

/-- Modelled from the spec: decoding of the elements of a container
(section 4.2).  The input is the container without its length field, cut to
the declared length, so its last byte is the terminator position.  Before
that position each element is tag byte, zero-terminated field name, payload;
decoding stops at the first violation.  The fuel bounds the number of nested
calls; any fuel above the length of the input gives the same result
(`decodeElems_fuel`). -/
def decodeElems : Nat → List Byte → Except DecodingError Elems
  | 0, _ => .error .LengthMismatch
  | fuel + 1, s =>
    match s with
    | [] => .error .LengthMismatch
    | tag :: r =>
      match r with
      | [] => if tag = 0 then .ok .nil else .error .LengthMismatch
      | _ :: _ =>
        if tag ∈ recognizedTags then
          match readCString r with
          | none => .error .UnterminatedFieldName
          | some (name, r1) =>
            if validUTF8 name then
              match decodeValue (decodeElems fuel) tag r1 with
              | .error e => .error e
              | .ok (v, r2) =>
                match decodeElems fuel r2 with
                | .error e => .error e
                | .ok rest => .ok (.cons name v rest)
            else .error .InvalidUTF8
        else .error .InvalidTypeTag

/-- Modelled from the spec: the Decoder of section 4.2 on a byte sequence and
an offset; it returns the Document and the number of bytes consumed.  With
`exact` set, bytes after the document are an error. -/
def decodeAt (buf : List Byte) (off : Nat) (exact : Bool) :
    Except DecodingError (Elems × Nat) :=
  match docSlice (buf.drop off) with
  | .error e => .error e
  | .ok (body, rest) =>
    match decodeElems (body.length + 1) body with
    | .error e => .error e
    | .ok d =>
      if exact && !rest.isEmpty then .error .TrailingGarbage
      else .ok (d, body.length + 4)

/-- Modelled from the spec: the Decoder applied to a whole buffer that must
hold exactly one top-level Document. -/
def decode (buf : List Byte) : Except DecodingError Elems :=
  match decodeAt buf 0 true with
  | .error e => .error e
  | .ok (d, _) => .ok d

/-! ## `main` (gettestdata.c, lines 11-19) -/

/-- Modelled from the spec: the fields of the library type `bson_t` the
program uses, `len` and the buffer `bson_get_data` returns. -/
structure bson_t where
  len : Nat
  data : List Byte
  deriving DecidableEq, Repr

/-- The 32-bit integer one. -/
def I32.one : I32 := ⟨1, by decide, by decide⟩

/-- The document `{"x": {"y": 1}}` that the arguments
`("x", "{", "y", BCON_INT32(1), "}")` describe. -/
def mainDocument : Elems :=
  .cons [0x78] (.document (.cons [0x79] (.int32 I32.one) .nil)) .nil

/-- The twenty bytes the specification gives for `{"x": {"y": 1}}`. -/
def fixture : List Byte :=
  [0x14, 0x00, 0x00, 0x00, 0x03, 0x78, 0x00, 0x0c, 0x00, 0x00, 0x00, 0x10, 0x79, 0x00,
    0x01, 0x00, 0x00, 0x00, 0x00, 0x00]

/-- Modelled from the spec: the library macro `BCON_NEW`, which builds the
encoded document; `len` is the length of the encoding. -/
def BCON_NEW (d : Elems) : Except EncodingError bson_t :=
  match encode d with
  | .error e => .error e
  | .ok bytes => .ok { len := bytes.length, data := bytes }

/-- Modelled from the spec: the library accessor `bson_get_data`, the encoded
bytes of the document. -/
def bson_get_data (b : bson_t) : List Byte := b.data

/-- The program: `b` is the value `BCON_NEW` returned and `str` the text
`bson_as_canonical_extended_json` returned for it.  The result is everything
written to standard output. -/
def main (b : bson_t) (str : List Char) : Except Fault (List Char) :=
  let out := "JSON: ".toList ++ str ++ "\n".toList
  let out := out ++ "Hex : ".toList
  match hexdump (bson_get_data b) b.len with
  | .error e => .error e
  | .ok r => .ok (out ++ r.out)

/-! ## Vocabulary of the stated properties -/

mutual
/-- No zero byte inside a zero-terminated component of the value: the field
names of embedded containers and the two parts of a regex. -/
def Value.zeroFree : Value → Bool
  | .document d => d.zeroFree
  | .array d => d.zeroFree
  | .regex pattern options => decide ((0 : Byte) ∉ pattern) && decide ((0 : Byte) ∉ options)
  | _ => true
/-- No zero byte inside a field name or another zero-terminated component of
the document. -/
def Elems.zeroFree : Elems → Bool
  | .nil => true
  | .cons name v rest => decide ((0 : Byte) ∉ name) && (v.zeroFree && rest.zeroFree)
end

mutual
/-- The containers (documents and arrays) embedded in a value, at any depth. -/
def Value.containers : Value → List Elems
  | .document d => d :: d.containers
  | .array d => d :: d.containers
  | _ => []
/-- The containers embedded in the values of a document, at any depth. -/
def Elems.containers : Elems → List Elems
  | .nil => []
  | .cons _ v rest => v.containers ++ rest.containers
end

set_option maxRecDepth 100000 in
theorem printfHexByte_byte (b : Byte) : printfHexByte b.val = hexGroup b := by
  revert b
  decide

set_option maxRecDepth 100000 in
theorem undump_hexGroup (b : Byte) (rest : List Char) :
    undump (hexGroup b ++ rest) = b.val :: undump rest := by
  have h : hexValue (lowerHexDigit (b.val / 16)) * 16 + hexValue (lowerHexDigit (b.val % 16))
      = b.val := by
    revert b
    decide
  simp [hexGroup, undump, h]

theorem hexdumpLoop_run (data : List Byte) (len : Nat) (hlen : len ≤ SIZE_MAX)
    (hd : len ≤ data.length) :
    ∀ (n i : Nat) (r : Run) (fuel : Nat), i + n = len → n < fuel →
      hexdumpLoop data len fuel i r =
        .ok { out := r.out ++ ((data.drop i).take n).flatMap hexGroup,
              reads := r.reads ++ List.range' i n,
              iters := r.iters + n } := by
  intro n
  induction n with
  | zero =>
    intro i r fuel hi hf
    obtain ⟨f, rfl⟩ : ∃ f, fuel = f + 1 := ⟨fuel - 1, by omega⟩
    have : ¬ i < len := by omega
    simp [hexdumpLoop, this]
  | succ n ih =>
    intro i r fuel hi hf
    obtain ⟨f, rfl⟩ : ∃ f, fuel = f + 1 := ⟨fuel - 1, by omega⟩
    have hlt : i < len := by omega
    have hdl : i < data.length := by omega
    have hwrap : (i + 1) % (SIZE_MAX + 1) = i + 1 := Nat.mod_eq_of_lt (by omega)
    have hget : data[i]? = some data[i] := List.getElem?_eq_getElem hdl
    rw [hexdumpLoop, if_pos hlt, hget]
    simp only [hwrap]
    rw [ih (i + 1) _ f (by omega) (by omega)]
    rw [List.drop_eq_getElem_cons hdl, List.take_succ_cons, List.flatMap_cons,
      List.range'_succ, printfHexByte_byte]
    simp [Nat.add_assoc, Nat.add_comm 1 n]

theorem hexdumpFuel_run (data : List Byte) (len : Nat) (hlen : len ≤ SIZE_MAX)
    (hd : len ≤ data.length) (fuel : Nat) (hf : len < fuel) :
    hexdumpFuel fuel data len =
      .ok { out := (data.take len).flatMap hexGroup ++ ['\n'],
            reads := List.range len,
            iters := len } := by
  unfold hexdumpFuel
  rw [hexdumpLoop_run data len hlen hd len 0 _ fuel (by omega) hf]
  simp [List.range_eq_range']

theorem length_flatMap_hexGroup (l : List Byte) : (l.flatMap hexGroup).length = 6 * l.length := by
  induction l with
  | nil => rfl
  | cons b t ih => simp [List.flatMap_cons, ih, hexGroup]; omega

theorem undump_flatMap_hexGroup (l : List Byte) :
    undump (l.flatMap hexGroup ++ ['\n']) = l.map Fin.val := by
  induction l with
  | nil => simp [undump]
  | cons b t ih =>
    rw [List.flatMap_cons, List.append_assoc, undump_hexGroup, ih]
    rfl

/-! ## Facts about little-endian integers and the readers -/

theorem length_leBytes (k n : Nat) : (leBytes k n).length = k := by
  induction k generalizing n with
  | zero => rfl
  | succ k ih => simp [leBytes, ih]

theorem leValue_leBytes (k n : Nat) : leValue (leBytes k n) = n % 256 ^ k := by
  induction k generalizing n with
  | zero => simp [leBytes, leValue, Nat.mod_one]
  | succ k ih =>
    simp only [leBytes, leValue, ih]
    rw [pow_succ, Nat.mul_comm (256 ^ k) 256, Nat.mod_mul]

theorem leValue_leBytes_four (n : Nat) (h : n < 4294967296) : leValue (leBytes 4 n) = n := by
  rw [leValue_leBytes]
  exact Nat.mod_eq_of_lt (by norm_num; exact h)

theorem leValue_leBytes_eight (n : Nat) (h : n < 18446744073709551616) :
    leValue (leBytes 8 n) = n := by
  rw [leValue_leBytes]
  exact Nat.mod_eq_of_lt (by norm_num; exact h)

theorem i32_ofBits_toBits (v : I32) : I32.ofBits v.toBits = v := by
  obtain ⟨x, lo, hi⟩ := v
  unfold I32.ofBits I32.toBits
  dsimp only
  split <;> rename_i h <;> simp only [I32.mk.injEq] <;> omega

theorem i64_ofBits_toBits (v : I64) : I64.ofBits v.toBits = v := by
  obtain ⟨x, lo, hi⟩ := v
  unfold I64.ofBits I64.toBits
  dsimp only
  split <;> rename_i h <;> simp only [I64.mk.injEq] <;> omega

theorem i32_toBits_lt (v : I32) : v.toBits < 4294967296 := by
  unfold I32.toBits; omega

theorem i64_toBits_lt (v : I64) : v.toBits < 18446744073709551616 := by
  unfold I64.toBits; omega

theorem doubleBits_ofBits_val (b : DoubleBits) : DoubleBits.ofBits b.val = b := by
  apply Fin.ext
  simp [DoubleBits.ofBits, Nat.mod_eq_of_lt b.isLt]

theorem takeBytes_append (a r : List Byte) (e : DecodingError) (n : Nat) (h : a.length = n) :
    takeBytes n (a ++ r) e = .ok (a, r) := by
  subst h
  simp [takeBytes]

theorem readCString_append (name rest : List Byte) (h : (0 : Byte) ∉ name) :
    readCString (name ++ 0 :: rest) = some (name, rest) := by
  induction name with
  | nil => simp [readCString]
  | cons b t ih =>
    have hb : b ≠ 0 := fun hb => h (by simp [hb])
    have ht : (0 : Byte) ∉ t := fun ht => h (by simp [ht])
    simp [readCString, hb, ih ht]

theorem readString_encodeString (s rest : List Byte) (h : s.length + 1 < 4294967296) :
    readString (encodeString s ++ rest) = .ok (s, rest) := by
  unfold readString encodeString
  rw [List.append_assoc, List.append_assoc,
    takeBytes_append _ _ _ 4 (length_leBytes 4 _)]
  simp only [leValue_leBytes_four _ h]
  rw [if_neg (by omega), takeBytes_append _ _ _ _ (by simp)]
  simp

theorem length_frame (body : List Byte) : (frame body).length = body.length + 5 := by
  simp [frame, length_leBytes]; omega

theorem length_encodeString (s : List Byte) : (encodeString s).length = s.length + 5 := by
  simp [encodeString, length_leBytes]; omega

theorem take_four_frame (body rest : List Byte) :
    (frame body ++ rest).take 4 = leBytes 4 (body.length + 5) := by
  unfold frame
  rw [List.append_assoc, List.append_assoc]
  exact List.take_left' (length_leBytes 4 _)

theorem docSlice_frame (body rest : List Byte) (h : body.length + 5 < 4294967296) :
    docSlice (frame body ++ rest) = .ok (body ++ [0], rest) := by
  have hl : (frame body ++ rest).length = body.length + 5 + rest.length := by
    simp [length_frame]
  unfold docSlice
  rw [take_four_frame, leValue_leBytes_four _ h, hl, if_neg (by omega), if_neg (by omega),
    if_neg (by omega)]
  have h1 : (frame body ++ rest).take (body.length + 5) = frame body :=
    List.take_left' (length_frame body)
  have h2 : (frame body ++ rest).drop (body.length + 5) = rest :=
    List.drop_left' (length_frame body)
  rw [h1, h2]
  have h3 : (frame body).drop 4 = body ++ [0] := by
    unfold frame
    rw [List.append_assoc]
    exact List.drop_left' (length_leBytes 4 _)
  rw [h3]

/-! ## Round trip -/

theorem decodeElems_succ (fuel : Nat) (tag : Byte) (r : List Byte) (hr : r ≠ []) :
    decodeElems (fuel + 1) (tag :: r) =
      if tag ∈ recognizedTags then
        match readCString r with
        | none => .error .UnterminatedFieldName
        | some (name, r1) =>
          if validUTF8 name then
            match decodeValue (decodeElems fuel) tag r1 with
            | .error e => .error e
            | .ok (v, r2) =>
              match decodeElems fuel r2 with
              | .error e => .error e
              | .ok rest => .ok (.cons name v rest)
          else .error .InvalidUTF8
      else .error .InvalidTypeTag := by
  cases r with
  | nil => exact absurd rfl hr
  | cons b t => rfl

theorem valueTag_ne_zero (v : Value) : valueTag v ≠ 0 := by
  cases v <;> simp only [valueTag] <;> decide

theorem valueTag_mem (v : Value) : valueTag v ∈ recognizedTags := by
  cases v <;> simp only [valueTag] <;> decide

mutual
theorem decodeValue_encodeValue : ∀ (v : Value) (payload : List Byte),
    encodeValue v = .ok payload → v.zeroFree = true → payload.length < 4294967296 →
    ∀ (fuel : Nat), payload.length ≤ fuel → ∀ (rest : List Byte),
      decodeValue (decodeElems fuel) (valueTag v) (payload ++ rest) = .ok (v, rest)
  | .double bits, payload, he, _, _, fuel, _, rest => by
    simp only [encodeValue, Except.ok.injEq] at he
    subst he
    simp [decodeValue, valueTag, takeBytes_append _ _ _ 8 (length_leBytes 8 _),
      leValue_leBytes_eight _ bits.isLt, doubleBits_ofBits_val]
  | .string s, payload, he, _, hl, fuel, _, rest => by
    simp only [encodeValue] at he
    split at he
    · rename_i hv
      simp only [Except.ok.injEq] at he
      subst he
      rw [length_encodeString] at hl
      simp [decodeValue, valueTag, readString_encodeString s rest (by omega), hv]
    · simp at he
  | .document d, payload, he, hz, hl, fuel, hf, rest => by
    simp only [encodeValue] at he
    split at he
    · simp at he
    · rename_i body hb
      simp only [Except.ok.injEq] at he
      subst he
      rw [length_frame] at hl hf
      have ih := decodeElems_encodeElems d body hb hz (by omega) fuel (by omega)
      simp [decodeValue, valueTag, docSlice_frame body rest (by omega), ih]
  | .array d, payload, he, hz, hl, fuel, hf, rest => by
    simp only [encodeValue] at he
    split at he
    · simp at he
    · rename_i body hb
      simp only [Except.ok.injEq] at he
      subst he
      rw [length_frame] at hl hf
      have ih := decodeElems_encodeElems d body hb hz (by omega) fuel (by omega)
      simp [decodeValue, valueTag, docSlice_frame body rest (by omega), ih]
  | .binary subtype data, payload, he, _, hl, fuel, _, rest => by
    simp only [encodeValue, Except.ok.injEq] at he
    subst he
    simp [length_leBytes] at hl
    simp [decodeValue, valueTag, takeBytes_append _ _ _ 4 (length_leBytes 4 _),
      leValue_leBytes_four data.length (by omega), takeBytes_append data rest _ _ rfl]
  | .boolean b, payload, he, _, _, fuel, _, rest => by
    simp only [encodeValue, Except.ok.injEq] at he
    subst he
    cases b <;> simp [decodeValue, valueTag]
  | .datetime ms, payload, he, _, _, fuel, _, rest => by
    simp only [encodeValue, Except.ok.injEq] at he
    subst he
    simp [decodeValue, valueTag, takeBytes_append _ _ _ 8 (length_leBytes 8 _),
      leValue_leBytes_eight _ (i64_toBits_lt ms), i64_ofBits_toBits]
  | .null, payload, he, _, _, fuel, _, rest => by
    simp only [encodeValue, Except.ok.injEq] at he
    subst he
    simp [decodeValue, valueTag]
  | .regex pattern options, payload, he, hz, _, fuel, _, rest => by
    simp only [encodeValue, Except.ok.injEq] at he
    subst he
    simp only [Value.zeroFree, Bool.and_eq_true, decide_eq_true_eq] at hz
    have h1 : pattern ++ [0] ++ options ++ [0] ++ rest
        = pattern ++ 0 :: (options ++ 0 :: rest) := by simp
    simp [decodeValue, valueTag, h1, readCString_append _ _ hz.1, readCString_append _ _ hz.2]
  | .dbPointer ns id, payload, he, _, hl, fuel, _, rest => by
    simp only [encodeValue, Except.ok.injEq] at he
    subst he
    simp [length_encodeString] at hl
    have h12 : ((id.bytes ++ rest).take 12) = id.bytes := List.take_left' id.size
    have hd12 : ((id.bytes ++ rest).drop 12) = rest := List.drop_left' id.size
    simp [decodeValue, valueTag, List.append_assoc, readString_encodeString ns _ (by omega),
      h12, hd12, id.size]
  | .jsCode code, payload, he, _, hl, fuel, _, rest => by
    simp only [encodeValue, Except.ok.injEq] at he
    subst he
    rw [length_encodeString] at hl
    simp [decodeValue, valueTag, readString_encodeString code rest (by omega)]
  | .symbol s, payload, he, _, hl, fuel, _, rest => by
    simp only [encodeValue, Except.ok.injEq] at he
    subst he
    rw [length_encodeString] at hl
    simp [decodeValue, valueTag, readString_encodeString s rest (by omega)]
  | .int32 v, payload, he, _, _, fuel, _, rest => by
    simp only [encodeValue, Except.ok.injEq] at he
    subst he
    simp [decodeValue, valueTag, takeBytes_append _ _ _ 4 (length_leBytes 4 _),
      leValue_leBytes_four _ (i32_toBits_lt v), i32_ofBits_toBits]
  | .int64 v, payload, he, _, _, fuel, _, rest => by
    simp only [encodeValue, Except.ok.injEq] at he
    subst he
    simp [decodeValue, valueTag, takeBytes_append _ _ _ 8 (length_leBytes 8 _),
      leValue_leBytes_eight _ (i64_toBits_lt v), i64_ofBits_toBits]
  | .minKey, payload, he, _, _, fuel, _, rest => by
    simp only [encodeValue, Except.ok.injEq] at he
    subst he
    simp [decodeValue, valueTag]
  | .maxKey, payload, he, _, _, fuel, _, rest => by
    simp only [encodeValue, Except.ok.injEq] at he
    subst he
    simp [decodeValue, valueTag]
theorem decodeElems_encodeElems : ∀ (d : Elems) (body : List Byte),
    encodeElems d = .ok body → d.zeroFree = true → body.length + 5 < 4294967296 →
    ∀ (fuel : Nat), body.length < fuel →
      decodeElems fuel (body ++ [0]) = .ok d
  | .nil, body, he, _, _, fuel, hf => by
    simp only [encodeElems, Except.ok.injEq] at he
    subst he
    obtain ⟨f, rfl⟩ : ∃ f, fuel = f + 1 := ⟨fuel - 1, by omega⟩
    simp [decodeElems]
  | .cons name v rest, body, he, hz, hl, fuel, hf => by
    simp only [encodeElems] at he
    split at he
    · rename_i hname
      split at he
      · simp at he
      · rename_i payload hp
        split at he
        · simp at he
        · rename_i tail ht
          simp only [Except.ok.injEq] at he
          subst he
          simp only [Elems.zeroFree, Bool.and_eq_true, decide_eq_true_eq] at hz
          obtain ⟨f, rfl⟩ : ∃ f, fuel = f + 1 := ⟨fuel - 1, by omega⟩
          simp only [List.length_cons, List.length_append, List.length_singleton,
            List.length_nil] at hl hf
          have ihv := decodeValue_encodeValue v payload hp hz.2.1 (by omega) f (by omega)
            (tail ++ [0])
          have iht := decodeElems_encodeElems rest tail ht hz.2.2 (by omega) f (by omega)
          have hshape : valueTag v :: (name ++ [0] ++ payload ++ tail) ++ [0]
              = valueTag v :: (name ++ 0 :: (payload ++ (tail ++ [0]))) := by simp
          rw [hshape, decodeElems_succ _ _ _ (by simp)]
          simp [valueTag_mem, readCString_append _ _ hz.1, hname, ihv, iht]
    · simp at he
end

/-! ## Length fields -/

theorem encode_eq_frame (d : Elems) (B : List Byte) (he : encode d = .ok B) :
    ∃ body, encodeElems d = .ok body ∧ B = frame body := by
  unfold encode at he
  split at he
  · simp at he
  · rename_i body hb
    simp only [Except.ok.injEq] at he
    exact ⟨body, hb, he.symm⟩

theorem take_four_frame_nil (body : List Byte) :
    (frame body).take 4 = leBytes 4 (body.length + 5) := by
  have := take_four_frame body []
  simpa using this

theorem encode_length_field (d : Elems) (B : List Byte) (he : encode d = .ok B) :
    leValue (B.take 4) = B.length % 4294967296 := by
  obtain ⟨body, _, rfl⟩ := encode_eq_frame d B he
  rw [take_four_frame_nil, leValue_leBytes, length_frame]
  norm_num

mutual
theorem containers_in_payload : ∀ (v : Value) (payload : List Byte),
    encodeValue v = .ok payload → ∀ d' ∈ v.containers,
      ∃ pre inner post, encode d' = .ok inner ∧ payload = pre ++ inner ++ post
  | .document d, payload, he, d', hm => by
    simp only [encodeValue] at he
    split at he
    · simp at he
    · rename_i body hb
      simp only [Except.ok.injEq] at he
      subst he
      simp only [Value.containers, List.mem_cons] at hm
      rcases hm with rfl | hm
      · exact ⟨[], frame body, [], by simp [encode, hb], by simp⟩
      · obtain ⟨pre, inner, post, h1, h2⟩ := containers_in_body d body hb d' hm
        exact ⟨leBytes 4 (body.length + 5) ++ pre, inner, post ++ [0], h1, by simp [frame, h2]⟩
  | .array d, payload, he, d', hm => by
    simp only [encodeValue] at he
    split at he
    · simp at he
    · rename_i body hb
      simp only [Except.ok.injEq] at he
      subst he
      simp only [Value.containers, List.mem_cons] at hm
      rcases hm with rfl | hm
      · exact ⟨[], frame body, [], by simp [encode, hb], by simp⟩
      · obtain ⟨pre, inner, post, h1, h2⟩ := containers_in_body d body hb d' hm
        exact ⟨leBytes 4 (body.length + 5) ++ pre, inner, post ++ [0], h1, by simp [frame, h2]⟩
  | .double _, _, _, _, hm => by simp [Value.containers] at hm
  | .string _, _, _, _, hm => by simp [Value.containers] at hm
  | .binary _ _, _, _, _, hm => by simp [Value.containers] at hm
  | .boolean _, _, _, _, hm => by simp [Value.containers] at hm
  | .datetime _, _, _, _, hm => by simp [Value.containers] at hm
  | .null, _, _, _, hm => by simp [Value.containers] at hm
  | .regex _ _, _, _, _, hm => by simp [Value.containers] at hm
  | .dbPointer _ _, _, _, _, hm => by simp [Value.containers] at hm
  | .jsCode _, _, _, _, hm => by simp [Value.containers] at hm
  | .symbol _, _, _, _, hm => by simp [Value.containers] at hm
  | .int32 _, _, _, _, hm => by simp [Value.containers] at hm
  | .int64 _, _, _, _, hm => by simp [Value.containers] at hm
  | .minKey, _, _, _, hm => by simp [Value.containers] at hm
  | .maxKey, _, _, _, hm => by simp [Value.containers] at hm
theorem containers_in_body : ∀ (d : Elems) (body : List Byte),
    encodeElems d = .ok body → ∀ d' ∈ d.containers,
      ∃ pre inner post, encode d' = .ok inner ∧ body = pre ++ inner ++ post
  | .nil, _, _, _, hm => by simp [Elems.containers] at hm
  | .cons name v rest, body, he, d', hm => by
    simp only [encodeElems] at he
    split at he
    · split at he
      · simp at he
      · rename_i payload hp
        split at he
        · simp at he
        · rename_i tail ht
          simp only [Except.ok.injEq] at he
          subst he
          simp only [Elems.containers, List.mem_append] at hm
          rcases hm with hm | hm
          · obtain ⟨pre, inner, post, h1, h2⟩ := containers_in_payload v payload hp d' hm
            exact ⟨valueTag v :: (name ++ [0] ++ pre), inner, post ++ tail, h1, by simp [h2]⟩
          · obtain ⟨pre, inner, post, h1, h2⟩ := containers_in_body rest tail ht d' hm
            exact ⟨valueTag v :: (name ++ [0] ++ payload ++ pre), inner, post, h1, by simp [h2]⟩
    · simp at he
end

/-! ## The decoder on whole buffers -/

theorem decode_ok_length_field (B : List Byte) (d : Elems) (h : decode B = .ok d) :
    4 ≤ B.length ∧ leValue (B.take 4) = B.length := by
  unfold decode decodeAt docSlice at h
  simp only [List.drop_zero] at h
  split at h
  · simp at h
  · rename_i d0 n hd
    split at hd
    · rename_i e hs
      simp at hd
    · rename_i body rest hs
      split at hs
      · simp at hs
      · rename_i h4
        split at hs
        · simp at hs
        · rename_i hL
          split at hs
          · simp at hs
          · simp only [Except.ok.injEq, Prod.mk.injEq] at hs
            obtain ⟨_, hrest⟩ := hs
            split at hd
            · simp at hd
            · split at hd
              · simp at hd
              · rename_i hex
                have hre : rest = [] := by
                  cases rest with
                  | nil => rfl
                  | cons a t => simp at hex
                rw [hre] at hrest
                have := List.drop_eq_nil_iff.mp hrest
                omega

theorem decode_take_truncated (B : List Byte)
    (hL : leValue (B.take 4) = B.length) (k : Nat) (hk : k < B.length) :
    decode (B.take k) = .error .TruncatedInput := by
  have hlen : (B.take k).length = k := by simp; omega
  unfold decode decodeAt docSlice
  simp only [List.drop_zero, hlen]
  by_cases hk4 : k < 4
  · simp [hk4]
  · have ht : (B.take k).take 4 = B.take 4 := by
      rw [List.take_take]
      congr 1
      omega
    rw [if_neg hk4, ht, hL, if_pos hk]

/-! ## Tags -/

theorem decodeValue_unrecognized (sub : List Byte → Except DecodingError Elems) (tag : Byte)
    (s : List Byte) (hm : tag ∉ recognizedTags) :
    decodeValue sub tag s = .error .InvalidTypeTag := by
  simp only [recognizedTags, List.mem_cons, List.mem_singleton, List.not_mem_nil, or_false,
    not_or] at hm
  obtain ⟨h1, h2, h3, h4, h5, h6, h7, h8, h9, h10, h11, h12, h13, h14, h15, h16⟩ := hm
  unfold decodeValue
  rw [if_neg h1, if_neg h2, if_neg h3, if_neg h4, if_neg h5, if_neg h6, if_neg h7, if_neg h8,
    if_neg h9, if_neg h10, if_neg h11, if_neg h12, if_neg h13, if_neg h14, if_neg h15, if_neg h16]

theorem readCString_length : ∀ (s name r : List Byte),
    readCString s = some (name, r) → r.length < s.length
  | [], _, _, h => by simp [readCString] at h
  | b :: t, name, r, h => by
    simp only [readCString] at h
    split at h
    · simp only [Option.some.injEq, Prod.mk.injEq] at h
      obtain ⟨_, rfl⟩ := h
      simp
    · split at h
      · simp at h
      · rename_i n0 r0 hr
        simp only [Option.some.injEq, Prod.mk.injEq] at h
        obtain ⟨_, rfl⟩ := h
        have := readCString_length t n0 r0 hr
        simp only [List.length_cons]
        omega

theorem takeBytes_length (n : Nat) (s a r : List Byte) (e : DecodingError)
    (h : takeBytes n s e = .ok (a, r)) : r.length ≤ s.length := by
  unfold takeBytes at h
  split at h
  · simp only [Except.ok.injEq, Prod.mk.injEq] at h
    obtain ⟨_, rfl⟩ := h
    simp
  · simp at h

theorem readString_length (s a r : List Byte) (h : readString s = .ok (a, r)) :
    r.length ≤ s.length := by
  unfold readString at h
  split at h
  · simp at h
  · rename_i len r0 h0
    have l0 := takeBytes_length _ _ _ _ _ h0
    split at h
    · simp at h
    · split at h
      · simp at h
      · rename_i str r1 h1
        have l1 := takeBytes_length _ _ _ _ _ h1
        split at h
        · simp at h
        · split at h
          · simp only [Except.ok.injEq, Prod.mk.injEq] at h
            obtain ⟨_, rfl⟩ := h
            simp only [List.length_cons] at l1
            omega
          · simp at h

theorem docSlice_length (s body r : List Byte) (h : docSlice s = .ok (body, r)) :
    body.length < s.length ∧ r.length ≤ s.length := by
  unfold docSlice at h
  split at h
  · simp at h
  · split at h
    · simp at h
    · split at h
      · simp at h
      · simp only [Except.ok.injEq, Prod.mk.injEq] at h
        obtain ⟨rfl, rfl⟩ := h
        simp only [List.length_drop, List.length_take]
        omega

theorem decodeValue_rest_length (sub : List Byte → Except DecodingError Elems) (tag : Byte)
    (s : List Byte) (v : Value) (r : List Byte) (h : decodeValue sub tag s = .ok (v, r)) :
    r.length ≤ s.length := by
  by_cases hm : tag ∈ recognizedTags
  · simp only [recognizedTags, List.mem_cons, List.mem_singleton, List.not_mem_nil,
      or_false] at hm
    rcases hm with rfl | rfl | rfl | rfl | rfl | rfl | rfl | rfl | rfl | rfl | rfl | rfl | rfl
      | rfl | rfl | rfl
    all_goals simp only [decodeValue, Fin.reduceEq, if_true, if_false, ite_true, ite_false] at h
    · split at h
      · simp at h
      · rename_i p r0 h0
        simp only [Except.ok.injEq, Prod.mk.injEq] at h
        obtain ⟨_, rfl⟩ := h
        exact takeBytes_length _ _ _ _ _ h0
    · split at h
      · simp at h
      · rename_i p r0 h0
        split at h
        · simp only [Except.ok.injEq, Prod.mk.injEq] at h
          obtain ⟨_, rfl⟩ := h
          exact readString_length _ _ _ h0
        · simp at h
    · split at h
      · simp at h
      · rename_i body r0 h0
        split at h
        · simp at h
        · simp only [Except.ok.injEq, Prod.mk.injEq] at h
          obtain ⟨_, rfl⟩ := h
          exact (docSlice_length _ _ _ h0).2
    · split at h
      · simp at h
      · rename_i body r0 h0
        split at h
        · simp at h
        · simp only [Except.ok.injEq, Prod.mk.injEq] at h
          obtain ⟨_, rfl⟩ := h
          exact (docSlice_length _ _ _ h0).2
    · split at h
      · simp at h
      · rename_i len r0 h0
        have l0 := takeBytes_length _ _ _ _ _ h0
        split at h
        · simp at h
        · rename_i subtype r1
          split at h
          · simp at h
          · rename_i data rest h1
            have l1 := takeBytes_length _ _ _ _ _ h1
            simp only [Except.ok.injEq, Prod.mk.injEq] at h
            obtain ⟨_, rfl⟩ := h
            simp only [List.length_cons] at l0
            omega
    · split at h
      · simp at h
      · split at h
        · simp only [Except.ok.injEq, Prod.mk.injEq] at h
          obtain ⟨_, rfl⟩ := h
          simp
        · split at h
          · simp only [Except.ok.injEq, Prod.mk.injEq] at h
            obtain ⟨_, rfl⟩ := h
            simp
          · simp at h
    · split at h
      · simp at h
      · rename_i p r0 h0
        simp only [Except.ok.injEq, Prod.mk.injEq] at h
        obtain ⟨_, rfl⟩ := h
        exact takeBytes_length _ _ _ _ _ h0
    · simp only [Except.ok.injEq, Prod.mk.injEq] at h
      obtain ⟨_, rfl⟩ := h
      exact Nat.le_refl _
    · split at h
      · simp at h
      · rename_i pattern r0 h0
        have l0 := readCString_length _ _ _ h0
        split at h
        · simp at h
        · rename_i options rest h1
          have l1 := readCString_length _ _ _ h1
          simp only [Except.ok.injEq, Prod.mk.injEq] at h
          obtain ⟨_, rfl⟩ := h
          omega
    · split at h
      · simp at h
      · rename_i ns r0 h0
        have l0 := readString_length _ _ _ h0
        split at h
        · simp only [Except.ok.injEq, Prod.mk.injEq] at h
          obtain ⟨_, rfl⟩ := h
          simp only [List.length_drop]
          omega
        · simp at h
    · split at h
      · simp at h
      · rename_i p r0 h0
        simp only [Except.ok.injEq, Prod.mk.injEq] at h
        obtain ⟨_, rfl⟩ := h
        exact readString_length _ _ _ h0
    · split at h
      · simp at h
      · rename_i p r0 h0
        simp only [Except.ok.injEq, Prod.mk.injEq] at h
        obtain ⟨_, rfl⟩ := h
        exact readString_length _ _ _ h0
    · split at h
      · simp at h
      · rename_i p r0 h0
        simp only [Except.ok.injEq, Prod.mk.injEq] at h
        obtain ⟨_, rfl⟩ := h
        exact takeBytes_length _ _ _ _ _ h0
    · split at h
      · simp at h
      · rename_i p r0 h0
        simp only [Except.ok.injEq, Prod.mk.injEq] at h
        obtain ⟨_, rfl⟩ := h
        exact takeBytes_length _ _ _ _ _ h0
    · simp only [Except.ok.injEq, Prod.mk.injEq] at h
      obtain ⟨_, rfl⟩ := h
      exact Nat.le_refl _
    · simp only [Except.ok.injEq, Prod.mk.injEq] at h
      obtain ⟨_, rfl⟩ := h
      exact Nat.le_refl _
  · rw [decodeValue_unrecognized sub tag s hm] at h
    simp at h

theorem decodeValue_congr (sub1 sub2 : List Byte → Except DecodingError Elems) (tag : Byte)
    (s : List Byte) (h : ∀ body : List Byte, body.length < s.length → sub1 body = sub2 body) :
    decodeValue sub1 tag s = decodeValue sub2 tag s := by
  have hdoc : ∀ (k : Elems → Value),
      (match docSlice s with
        | .error e => .error e
        | .ok (body, r) =>
          match sub1 body with
          | .error e => .error e
          | .ok d => .ok (k d, r) : Except DecodingError (Value × List Byte))
      = (match docSlice s with
        | .error e => .error e
        | .ok (body, r) =>
          match sub2 body with
          | .error e => .error e
          | .ok d => .ok (k d, r)) := by
    intro k
    cases hs : docSlice s with
    | error e => rfl
    | ok p =>
      obtain ⟨body, r⟩ := p
      simp only [h body (docSlice_length _ _ _ hs).1]
  by_cases hm : tag ∈ recognizedTags
  · simp only [recognizedTags, List.mem_cons, List.mem_singleton, List.not_mem_nil,
      or_false] at hm
    rcases hm with rfl | rfl | rfl | rfl | rfl | rfl | rfl | rfl | rfl | rfl | rfl | rfl | rfl
      | rfl | rfl | rfl
    all_goals simp only [decodeValue, Fin.reduceEq, if_true, if_false, ite_true, ite_false]
    · exact hdoc Value.document
    · exact hdoc Value.array
  · rw [decodeValue_unrecognized sub1 tag s hm, decodeValue_unrecognized sub2 tag s hm]

theorem decodeElems_fuel : ∀ (f1 f2 : Nat) (s : List Byte), s.length < f1 → s.length < f2 →
    decodeElems f1 s = decodeElems f2 s := by
  intro f1
  induction f1 with
  | zero => intro f2 s h1; omega
  | succ a ih =>
    intro f2 s h1 h2
    obtain ⟨b, rfl⟩ : ∃ b, f2 = b + 1 := ⟨f2 - 1, by omega⟩
    cases s with
    | nil => rfl
    | cons tag r =>
      cases r with
      | nil => rfl
      | cons x t =>
        rw [decodeElems_succ _ _ _ (by simp), decodeElems_succ _ _ _ (by simp)]
        simp only [List.length_cons] at h1 h2
        cases hrc : readCString (x :: t) with
        | none => rfl
        | some p =>
          obtain ⟨name, r1⟩ := p
          have hl1 := readCString_length _ _ _ hrc
          simp only [List.length_cons] at hl1
          have hcongr : decodeValue (decodeElems a) tag r1 = decodeValue (decodeElems b) tag r1 :=
            decodeValue_congr _ _ tag r1 (fun body hb => ih b body (by omega) (by omega))
          simp only [hcongr]
          cases hv : decodeValue (decodeElems b) tag r1 with
          | error e => rfl
          | ok q =>
            obtain ⟨v, r2⟩ := q
            have hl2 := decodeValue_rest_length _ _ _ _ _ hv
            simp only [ih b r2 (by omega) (by omega)]

theorem decodeAt_fuel (buf : List Byte) (off : Nat) (exact : Bool) (body rest : List Byte)
    (hs : docSlice (buf.drop off) = .ok (body, rest)) (fuel : Nat) (hf : body.length < fuel) :
    decodeAt buf off exact =
      match decodeElems fuel body with
      | .error e => .error e
      | .ok d =>
        if exact && !rest.isEmpty then .error .TrailingGarbage
        else .ok (d, body.length + 4) := by
  simp only [decodeAt, hs, decodeElems_fuel (body.length + 1) fuel body (Nat.lt_succ_self _) hf]

/-! ## Documents used as examples -/

theorem main_of_hexdump (b : bson_t) (str : List Char) (r : Run)
    (h : hexdump (bson_get_data b) b.len = .ok r) :
    main b str = .ok ("JSON: ".toList ++ str ++ "\n".toList ++ "Hex : ".toList ++ r.out) := by
  simp [main, h]

theorem hexdump_short_buffer :
    hexdump [0x14] 2 = .error .outOfBounds ∧ hexdumpFuel 2 [0x14, 0x00] 2 = .error .outOfFuel :=
  ⟨rfl, rfl⟩

/-! ## The stated properties -/

/-- C1: the document `{"x": {"y": 1}}` built in `main`, with 1 a 32-bit
signed integer, encodes to the fixed 20 bytes
`14 00 00 00 03 78 00 0c 00 00 00 10 79 00 01 00 00 00 00 00`: outer length,
tag 0x03, name `x`, the inner document (length, tag 0x10, name `y`, the value
1 in four little-endian bytes, terminator) and the outer terminator; these
bytes and the length 20 are what `main` hands to `hexdump`. -/
theorem main_document_bytes :
    encode mainDocument
      = .ok [0x14, 0x00, 0x00, 0x00, 0x03, 0x78, 0x00, 0x0c, 0x00, 0x00, 0x00, 0x10, 0x79, 0x00,
          0x01, 0x00, 0x00, 0x00, 0x00, 0x00]
    ∧ ([0x14, 0x00, 0x00, 0x00, 0x03, 0x78, 0x00, 0x0c, 0x00, 0x00, 0x00, 0x10, 0x79, 0x00,
          0x01, 0x00, 0x00, 0x00, 0x00, 0x00] : List Byte)
      = leBytes 4 20 ++ [0x03] ++ [0x78, 0x00]
          ++ (leBytes 4 12 ++ [0x10] ++ [0x79, 0x00] ++ leBytes 4 1 ++ [0x00]) ++ [0x00]
    ∧ BCON_NEW mainDocument
      = .ok { len := 20,
              data := [0x14, 0x00, 0x00, 0x00, 0x03, 0x78, 0x00, 0x0c, 0x00, 0x00, 0x00, 0x10,
                0x79, 0x00, 0x01, 0x00, 0x00, 0x00, 0x00, 0x00] } :=
  ⟨rfl, rfl, rfl⟩

/-- C4: encoding the empty document yields exactly the five bytes
`05 00 00 00 00`: the little-endian length 5, then the terminator. -/
theorem empty_document_bytes : encode .nil = .ok [0x05, 0x00, 0x00, 0x00, 0x00] :=
  rfl

/-- C5: for every valid encoding `B` (a buffer the decoder accepts as one whole
document, which every encoder output under 2^32 bytes with zero-free names
is) and every cut point `k < len(B)`, decoding the first `k` bytes fails with
`TruncatedInput`; no Document is returned. -/
theorem truncation_fails (B : List Byte) (d : Elems)
    (hv : decode B = .ok d ∨ (encode d = .ok B ∧ B.length < 4294967296))
    (k : Nat) (hk : k < B.length) :
    decode (B.take k) = .error .TruncatedInput := by
  apply decode_take_truncated B _ k hk
  rcases hv with hv | ⟨he, hs⟩
  · exact (decode_ok_length_field B d hv).2
  · rw [encode_length_field d B he]
    exact Nat.mod_eq_of_lt hs

theorem truncation_fails_witness :
    decode (fixture.take 19) = .error .TruncatedInput
    ∧ decode (fixture.take 5) = .error .TruncatedInput
    ∧ decode (fixture.take 0) = .error .TruncatedInput :=
  ⟨truncation_fails fixture mainDocument (Or.inl rfl) 19 (by decide),
   truncation_fails fixture mainDocument (Or.inl rfl) 5 (by decide),
   truncation_fails fixture mainDocument (Or.inr ⟨rfl, by decide⟩) 0 (by decide)⟩

/-- C7: `main` builds the one hardcoded document, prints its JSON form and
then the hex dump of its encoding: standard output is `JSON: `, the JSON
text, a newline, `Hex : ` and the output of `hexdump` on the whole encoding
(all of its bytes, each read once), so the last line is
`Hex : 0x14, 0x00, 0x00, 0x00, 0x03, 0x78, 0x00, 0x0c, 0x00, 0x00, 0x00, 0x10, 0x79, 0x00, 0x01, 0x00, 0x00, 0x00, 0x00, 0x00, `
followed by a newline. -/
theorem main_stdout (str : List Char) :
    ∃ b r, BCON_NEW mainDocument = .ok b
      ∧ encode mainDocument = .ok (bson_get_data b)
      ∧ b.len = (bson_get_data b).length
      ∧ hexdump (bson_get_data b) b.len = .ok r
      ∧ r.reads = List.range (bson_get_data b).length
      ∧ main b str
          = .ok ("JSON: ".toList ++ str ++ "\n".toList ++ "Hex : ".toList ++ r.out)
      ∧ main b str
          = .ok ("JSON: ".toList ++ str ++ "\n".toList
              ++ ("Hex : 0x14, 0x00, 0x00, 0x00, 0x03, 0x78, 0x00, 0x0c, 0x00, 0x00, 0x00, "
                  ++ "0x10, 0x79, 0x00, 0x01, 0x00, 0x00, 0x00, 0x00, 0x00, \n").toList) := by
  have h : hexdump (bson_get_data { len := 20, data := fixture }) 20
      = .ok { out := ("0x14, 0x00, 0x00, 0x00, 0x03, 0x78, 0x00, 0x0c, 0x00, 0x00, 0x00, "
                  ++ "0x10, 0x79, 0x00, 0x01, 0x00, 0x00, 0x00, 0x00, 0x00, \n").toList,
              reads := List.range 20, iters := 20 } := rfl
  refine ⟨{ len := 20, data := fixture }, _, rfl, rfl, rfl, h, rfl, main_of_hexdump _ str _ h, ?_⟩
  rw [main_of_hexdump _ str _ h, List.append_assoc (_ ++ _) "Hex : ".toList]
  rfl

/-- C8: for every byte sequence `data` of length `len`, `hexdump (data, len)`
prints for each index in increasing order the six characters `0x`, the two
lowercase zero-padded hexadecimal digits of the byte, a comma and a blank,
then one newline; the output has `6 * len + 1` characters, and for `len = 0`
it is the newline alone. -/
theorem hexdump_output (data : List Byte) (hlen : data.length ≤ SIZE_MAX) :
    ∃ r, hexdump data data.length = .ok r
      ∧ r.out = data.flatMap hexGroup ++ ['\n']
      ∧ r.out.length = 6 * data.length + 1
      ∧ hexdump [] 0 = .ok { out := ['\n'], reads := [], iters := 0 } := by
  refine ⟨_, hexdumpFuel_run data data.length hlen (Nat.le_refl _) _ (Nat.lt_succ_self _), ?_, ?_,
    rfl⟩
  · simp
  · simp only [List.take_length, List.length_append, length_flatMap_hexGroup]
    rfl

theorem hexdump_output_witness :
    ∃ r, hexdump [0x14, 0x00, 0xff] 3 = .ok r
      ∧ r.out = ([0x14, 0x00, 0xff] : List Byte).flatMap hexGroup ++ ['\n']
      ∧ r.out.length = 6 * 3 + 1
      ∧ hexdump [] 0 = .ok { out := ['\n'], reads := [], iters := 0 } :=
  hexdump_output [0x14, 0x00, 0xff] (by decide)

/-- C9: `hexdump` is injective: byte sequences whose dumps print the same
text are equal, and the dumped bytes are recovered from the text by reading
the two hexadecimal digits of each six-character group. -/
theorem hexdump_injective (a b : List Byte) (ha : a.length ≤ SIZE_MAX)
    (hb : b.length ≤ SIZE_MAX) :
    ∃ ra rb, hexdump a a.length = .ok ra ∧ hexdump b b.length = .ok rb
      ∧ undump ra.out = a.map Fin.val
      ∧ (ra.out = rb.out → a = b) := by
  refine ⟨_, _, hexdumpFuel_run a a.length ha (Nat.le_refl _) _ (Nat.lt_succ_self _),
    hexdumpFuel_run b b.length hb (Nat.le_refl _) _ (Nat.lt_succ_self _), ?_, ?_⟩
  · simp [undump_flatMap_hexGroup]
  · intro h
    simp only [List.take_length] at h
    have h2 := congrArg undump h
    rw [undump_flatMap_hexGroup, undump_flatMap_hexGroup] at h2
    exact List.map_injective_iff.mpr Fin.val_injective h2

theorem hexdump_injective_witness :
    ∃ ra rb, hexdump [0x14, 0x00] 2 = .ok ra ∧ hexdump [0x14, 0x01] 2 = .ok rb
      ∧ undump ra.out = ([0x14, 0x00] : List Byte).map Fin.val
      ∧ (ra.out = rb.out → ([0x14, 0x00] : List Byte) = [0x14, 0x01]) :=
  hexdump_injective [0x14, 0x00] [0x14, 0x01] (by decide) (by decide)

/-- C10: for every buffer `data` holding at least `len` bytes,
`hexdump (data, len)` terminates after exactly `len` loop iterations and reads
exactly the indices `0 .. len - 1`, each once and in order, so no read is out
of bounds; the call in `main` meets the precondition, as it passes the
document's data with its own length. -/
theorem hexdump_terminates_in_bounds (data : List Byte) (len : Nat) (hlen : len ≤ SIZE_MAX)
    (hd : len ≤ data.length) :
    ∃ r, hexdump data len = .ok r
      ∧ (∀ fuel, len < fuel → hexdumpFuel fuel data len = .ok r)
      ∧ r.iters = len
      ∧ r.reads = List.range len
      ∧ ∃ b, BCON_NEW mainDocument = .ok b ∧ b.len ≤ SIZE_MAX
          ∧ b.len ≤ (bson_get_data b).length := by
  refine ⟨_, hexdumpFuel_run data len hlen hd _ (Nat.lt_succ_self _), ?_, rfl, rfl,
    _, rfl, by decide, by decide⟩
  intro fuel hf
  exact hexdumpFuel_run data len hlen hd fuel hf

theorem hexdump_terminates_in_bounds_witness :
    ∃ r, hexdump [0x14, 0x00, 0xff] 2 = .ok r
      ∧ (∀ fuel, 2 < fuel → hexdumpFuel fuel [0x14, 0x00, 0xff] 2 = .ok r)
      ∧ r.iters = 2
      ∧ r.reads = List.range 2
      ∧ ∃ b, BCON_NEW mainDocument = .ok b ∧ b.len ≤ SIZE_MAX
          ∧ b.len ≤ (bson_get_data b).length :=
  hexdump_terminates_in_bounds [0x14, 0x00, 0xff] 2 (by decide) (by decide)

end GetTestData
